import Mathlib

/-
Verification of the egglog-to-LaTeX converter (egglog_to_inference.py).

The source operates on Python strings; here every function is embedded as a
computable Lean function on `List Char`.  Python loops that walk an index
forward are rendered as structural recursion on the remaining suffix; where a
loop body can make no progress (so the Python program would never return), the
embedded function is fuel-based and yields `none`.  Concretely:

  * `parse_sexp_list` loops forever when a top-level close-paren is reached
    (the position is never advanced); the embedding returns `none` there.
  * `to_latex` recurses on each extracted rule block; when the extracted block
    is the whole (stripped) input, the Python recursion never terminates.  The
    embedding `to_latexF` is fuel-indexed, and the wrapper `to_latex` supplies
    fuel `length + 1`, which is sufficient for every terminating Python run
    (each recursive call receives a strictly shorter block), so `none` marks
    exactly the diverging runs.

All other recursions terminate in Python with at most `length` steps, each
consuming at least one character, so fuel `length + 1` makes the fuel-based
embeddings exact.
-/

namespace Egglog

/-- Character list of a string literal. -/
def chars (s : String) : List Char := s.data

/-- Python `str.strip()`: drop leading and trailing whitespace. -/
def stripList (l : List Char) : List Char :=
  ((l.dropWhile Char.isWhitespace).reverse.dropWhile Char.isWhitespace).reverse

/-- Offset of the first open paren in a list, if any
(the skip-ahead loop at the top of `extract_balanced_content`). -/
def firstParenOff : List Char → Option Nat
  | [] => none
  | c :: cs => if c = '(' then some 0 else (firstParenOff cs).map (· + 1)

/-- The paren-depth scan of `extract_balanced_content`: starting with depth `d`,
return the offset of the close paren at which the depth first returns to zero
(increment on open paren, decrement on close paren and stop at depth zero). -/
def scanOff : List Char → Int → Option Nat
  | [], _ => none
  | c :: cs, d =>
    if c = '(' then (scanOff cs (d + 1)).map (· + 1)
    else if c = ')' then
      if d - 1 = 0 then some 0 else (scanOff cs (d - 1)).map (· + 1)
    else (scanOff cs d).map (· + 1)

/-- `extract_balanced_content(text, start)`: skip forward to the first `(` at or
after `start`, then scan for the matching `)`; return the stripped content
between them and the position just past the match.  With no `(` the skip loop
leaves the position at `max start (length text)`; with no matching `)` the
position of the found `(` is returned, with no content in either case. -/
def extract_balanced_content (text : List Char) (start : Nat) :
    Option (List Char) × Nat :=
  match firstParenOff (text.drop start) with
  | none => (none, max start text.length)
  | some k =>
    match scanOff (text.drop (start + k)) 0 with
    | none => (none, start + k)
    | some off =>
        (some (stripList ((text.drop (start + k + 1)).take (off - 1))),
         start + k + off + 1)

/-- Python `sep.join(items)`. -/
def joinTok (sep : List Char) : List (List Char) → List Char
  | [] => []
  | [t] => t
  | t :: ts => t ++ sep ++ joinTok sep ts

/-- Fuel-based body of Python `str.split()` (split on whitespace runs,
dropping empty pieces).  Fuel `length + 1` is always sufficient. -/
def splitWsF : Nat → List Char → List (List Char)
  | 0, _ => []
  | fuel + 1, l =>
    match l with
    | [] => []
    | c :: cs =>
      if c.isWhitespace then splitWsF fuel cs
      else
        (c :: cs).takeWhile (fun x => !x.isWhitespace) ::
          splitWsF fuel ((c :: cs).dropWhile (fun x => !x.isWhitespace))

/-- Python `str.split()` on whitespace. -/
def splitWs (l : List Char) : List (List Char) := splitWsF (l.length + 1) l

/-- Fuel-based body of Python `str.count(pat)` for a nonempty pattern:
non-overlapping occurrences scanned from the left.  Each step consumes at
least one character, so fuel `length + 1` is always sufficient. -/
def countOccurF : Nat → List Char → List Char → Nat
  | 0, _, _ => 0
  | fuel + 1, pat, text =>
    match text with
    | [] => 0
    | _ :: rest =>
      if pat.isPrefixOf text then
        1 + countOccurF fuel pat (text.drop (max 1 pat.length))
      else countOccurF fuel pat rest

/-- Python `text.count(pat)` for the nonempty patterns used by `to_latex`. -/
def countOccur (pat text : List Char) : Nat := countOccurF (text.length + 1) pat text

/-- `format_identifier` inside `clean_expression`: digits and single letters
stay bare, everything else has underscores escaped and is wrapped in `\text`. -/
def format_identifier (word : List Char) : List Char :=
  if (!word.isEmpty && word.all Char.isDigit) ||
     (word.length == 1 && word.all Char.isAlpha) then word
  else
    chars "\\text\x7b" ++
      (word.map (fun c => if c = '_' then chars "\\_" else [c])).flatten ++
      chars "\x7d"

/-- The splitting loop inside `parse_expression`: split on depth-0 spaces,
appending the stripped current chunk when it strips to something nonempty.
`cur` is the reversed current chunk. -/
def exprSplitGo : List Char → Int → List Char → List (List Char)
  | [], _, cur => if stripList cur.reverse = [] then [] else [stripList cur.reverse]
  | c :: cs, d, cur =>
    if c = '(' then exprSplitGo cs (d + 1) (c :: cur)
    else if c = ')' then exprSplitGo cs (d - 1) (c :: cur)
    else if c = ' ' ∧ d = 0 then
      if stripList cur.reverse = [] then exprSplitGo cs d cur
      else stripList cur.reverse :: exprSplitGo cs d []
    else exprSplitGo cs d (c :: cur)

/-- Fuel-based body of `parse_expression` inside `clean_expression`.  The
recursive calls are on depth-0 chunks of the text with its outer parens
removed, which are strictly shorter, so fuel `length + 1` is always
sufficient. -/
def parse_expressionF : Nat → List Char → List Char
  | 0, _ => []
  | fuel + 1, text =>
    let t := stripList text
    if (chars "(").isPrefixOf t then
      match exprSplitGo (stripList ((t.drop 1).dropLast)) 0 [] with
      | [] => []
      | [p] => chars "(" ++ format_identifier p ++ chars ")"
      | p :: rest =>
          format_identifier p ++ chars "(" ++
            joinTok (chars ", ") (rest.map (parse_expressionF fuel)) ++ chars ")"
    else joinTok (chars " ") ((splitWs t).map format_identifier)

/-- `parse_expression` inside `clean_expression`. -/
def parse_expression (text : List Char) : List Char :=
  parse_expressionF (text.length + 1) text

/-- `clean_expression(expr)`: decide whether a parenthesized expression is a
multi-token function application (first token alphanumeric after dropping
underscores and hyphens); if so format it recursively, otherwise drop the
outer parens first. -/
def clean_expression (expr : List Char) : List Char :=
  let e := stripList expr
  if (chars "(").isPrefixOf e ∧ e.getLast? = some ')' then
    match splitWs ((e.drop 1).dropLast) with
    | p :: _ :: _ =>
      let p' := p.filter (fun c => !(c == '_') && !(c == '-'))
      if !p'.isEmpty && p'.all Char.isAlphanum then parse_expression e
      else parse_expression ((e.drop 1).dropLast)
    | _ => parse_expression ((e.drop 1).dropLast)
  else parse_expression e

/-- The splitting loop inside `clean_equation`: split on depth-0 spaces when
the current chunk is nonempty (a depth-0 space with an empty chunk falls
through and is appended to the chunk).  `cur` is the reversed current chunk. -/
def eqSplitGo : List Char → Int → List Char → List (List Char)
  | [], _, cur => if cur = [] then [] else [cur.reverse]
  | c :: cs, d, cur =>
    if c = '(' then eqSplitGo cs (d + 1) (c :: cur)
    else if c = ')' then eqSplitGo cs (d - 1) (c :: cur)
    else if c = ' ' ∧ d = 0 ∧ cur ≠ [] then cur.reverse :: eqSplitGo cs d []
    else eqSplitGo cs d (c :: cur)

/-- `clean_equation(expr)`: recognize a leading `(= lhs rhs)` form and emit
`lhs = rhs`; otherwise fall back to `clean_expression`. -/
def clean_equation (expr : List Char) : List Char :=
  let e := stripList expr
  if (chars "(= ").isPrefixOf e then
    let content := e.drop 3
    let content2 := if content.getLast? = some ')' then content.dropLast else content
    match eqSplitGo content2 0 [] with
    | p :: q :: rest =>
        clean_expression p ++ chars " = " ++
          clean_expression (joinTok (chars " ") (q :: rest))
    | _ => clean_expression e
  else clean_expression e

/-- Fuel-based body of `parse_sexp_list` inside `parse_rule`.  A close paren at
top level leaves the Python loop position unchanged forever, hence `none`;
every other step consumes at least one character, so fuel `length + 1` is
always sufficient for the terminating runs. -/
def sexpItemsF : Nat → List Char → Option (List (List Char))
  | 0, _ => none
  | fuel + 1, l =>
    match l with
    | [] => some []
    | c :: cs =>
      if c.isWhitespace then sexpItemsF fuel cs
      else if c = '(' then
        match scanOff (c :: cs) 0 with
        | some off =>
            (sexpItemsF fuel ((c :: cs).drop (off + 1))).map
              (fun r => (chars "(" ++ stripList (cs.take (off - 1)) ++ chars ")") :: r)
        | none => sexpItemsF fuel cs
      else if c = ')' then none
      else
        let a := (c :: cs).takeWhile (fun x => !x.isWhitespace && !(x == '(') && !(x == ')'))
        (sexpItemsF fuel ((c :: cs).drop a.length)).map (fun r => a :: r)

/-- `parse_sexp_list(content)`: split a span's content into top-level tokens,
parenthesized sub-expressions re-wrapped in parens, atoms kept as-is. -/
def parse_sexp_list (content : List Char) : Option (List (List Char)) :=
  sexpItemsF (content.length + 1) content

/-- `parse_rule(rule_text)`: strip the `(rule` keyword and trailing close
paren, extract the conditions and conclusions blocks, and tokenize each. -/
def parse_rule (rule_text : List Char) :
    Option (List (List Char) × List (List Char)) :=
  let t0 := stripList rule_text
  let t1 := if (chars "(rule").isPrefixOf t0 then stripList (t0.drop 5) else t0
  let t := if t1.getLast? = some ')' then stripList t1.dropLast else t1
  let conditions_content := (extract_balanced_content t 0).1
  let pos := (extract_balanced_content t 0).2
  let conclusions_content := (extract_balanced_content t pos).1
  match parse_sexp_list (conditions_content.getD []),
        parse_sexp_list (conclusions_content.getD []) with
  | some conditions, some conclusions => some (conditions, conclusions)
  | _, _ => none

/-- The keyword-stripping step at the top of `parse_rewrite`. -/
def rewriteBody (t : List Char) : List Char :=
  let content := stripList (t.drop 8)
  if content.getLast? = some ')' then stripList content.dropLast else content

/-- `parse_rewrite(rule_text)`: extract two balanced spans after the
`(rewrite` keyword; both must be present and nonempty. -/
def parse_rewrite (rule_text : List Char) :
    Option (List Char) × Option (List Char) :=
  let t := stripList rule_text
  if (chars "(rewrite").isPrefixOf t then
    let content := rewriteBody t
    let lhs := (extract_balanced_content content 0).1
    let pos := (extract_balanced_content content 0).2
    let rhs := (extract_balanced_content content pos).1
    match lhs, rhs with
    | some l, some r =>
        if l ≠ [] ∧ r ≠ [] then
          (some (chars "(" ++ l ++ chars ")"), some (chars "(" ++ r ++ chars ")"))
        else (none, none)
    | _, _ => (none, none)
  else (none, none)

/-- `format_multiline(items)`: an `array` block for two or more items, the
item itself for one, `\text{true}` for none. -/
def format_multiline (items : List (List Char)) : List Char :=
  if 1 < items.length then
    chars "\\begin\x7barray\x7d\x7bl\x7d " ++ joinTok (chars " \\\\ ") items ++
      chars " \\end\x7barray\x7d"
  else
    match items with
    | [x] => x
    | _ => chars "\\text\x7btrue\x7d"

/-- Fuel-based body of the block-extraction scan in the multi-rule branch of
`to_latex`: skip whitespace, and at each `(rule ` / `(rewrite ` prefix take the
balanced block and continue after it; a block whose parens never re-balance
ends the scan.  Fuel `length + 1` is always sufficient. -/
def ruleBlocksF : Nat → List Char → List (List Char)
  | 0, _ => []
  | fuel + 1, text =>
    match text with
    | [] => []
    | c :: cs =>
      if c.isWhitespace then ruleBlocksF fuel cs
      else if (chars "(rule ").isPrefixOf (c :: cs) ||
              (chars "(rewrite ").isPrefixOf (c :: cs) then
        match scanOff (c :: cs) 0 with
        | some off =>
            (c :: cs).take (off + 1) :: ruleBlocksF fuel ((c :: cs).drop (off + 1))
        | none => []
      else ruleBlocksF fuel cs

/-- The top-level rule blocks scanned out of a multi-rule input. -/
def ruleBlocks (text : List Char) : List (List Char) :=
  ruleBlocksF (text.length + 1) text

/-- Convert each block in order, failing as soon as one conversion fails. -/
def convertAll (f : List Char → Option (List Char)) :
    List (List Char) → Option (List (List Char))
  | [] => some []
  | r :: rs =>
    match f r with
    | none => none
    | some c => (convertAll f rs).map (fun cs => c :: cs)

/-- Attach the `% Rule i` headers of the multi-rule branch, numbering from `i`. -/
def numberRules : Nat → List (List Char) → List (List Char)
  | _, [] => []
  | i, c :: cs =>
      (chars "% Rule " ++ (Nat.repr i).data ++ chars "\n" ++ c) :: numberRules (i + 1) cs

/-- The single-rule part of `to_latex`: dispatch on the keyword prefix. -/
def singleRule (text : List Char) : Option (List Char) :=
  if (chars "(rewrite").isPrefixOf text then
    match parse_rewrite text with
    | (some l, some r) =>
        if l ≠ [] ∧ r ≠ [] then
          some (chars "\\frac\x7bexpr = " ++ clean_expression l ++
                chars "\x7d\x7bexpr \\to " ++ clean_expression r ++ chars "\x7d")
        else some (chars "Error: Could not parse rewrite rule")
    | _ => some (chars "Error: Could not parse rewrite rule")
  else if (chars "(rule").isPrefixOf text then
    match parse_rule text with
    | none => none
    | some (conditions, conclusions) =>
        if conditions = [] ∧ conclusions = [] then
          some (chars "Error: Could not parse rule")
        else
          some (chars "\\frac\x7b" ++
                format_multiline (conditions.map clean_equation) ++
                chars "\x7d\x7b" ++
                format_multiline (conclusions.map clean_expression) ++ chars "\x7d")
  else some (chars "Error: Unrecognized rule format")

/-- Fuel-indexed `to_latex`.  Fuel is consumed once per call; the multi-rule
branch converts each extracted block recursively.  Python recurses on blocks
that may equal the whole input, in which case it never terminates; here that
run exhausts its fuel and yields `none`. -/
def to_latexF : Nat → List Char → Option (List Char)
  | 0, _ => none
  | fuel + 1, egglog_rule =>
    let text := stripList egglog_rule
    let total_rules :=
      countOccur (chars "(rule") text + countOccur (chars "(rewrite") text
    let rules := ruleBlocks text
    if 1 < total_rules ∧ rules ≠ [] then
      (convertAll (to_latexF fuel) rules).map
        (fun convs => joinTok (chars "\n\n") (numberRules 1 convs))
    else singleRule text

/-- `to_latex(egglog_rule)`.  For every run on which the Python function
terminates the result is `some` of its output; `none` marks the runs on which
Python never returns. -/
def to_latex (egglog_rule : List Char) : Option (List Char) :=
  to_latexF (egglog_rule.length + 1) egglog_rule

/-! Helper lemmas about the balanced-span extractor. -/

lemma map_succ_eq_some {o : Option Nat} {off : Nat}
    (h : o.map (fun x => x + 1) = some off) : ∃ k, o = some k ∧ off = k + 1 := by
  cases o with
  | none => simp at h
  | some x => exact ⟨x, rfl, (Option.some.inj h).symm⟩

lemma firstParenOff_eq_none (l : List Char) (h : '(' ∉ l) : firstParenOff l = none := by
  induction l with
  | nil => rfl
  | cons c cs ih =>
      have hc : ¬ c = '(' := by
        intro he
        exact h (by simp [he])
      have hcs : '(' ∉ cs := fun hm => h (List.mem_cons_of_mem _ hm)
      simp [firstParenOff, hc, ih hcs]

lemma firstParenOff_drop (l : List Char) (k : Nat) (h : firstParenOff l = some k) :
    ∃ v, l.drop k = '(' :: v := by
  induction l generalizing k with
  | nil => simp [firstParenOff] at h
  | cons c cs ih =>
      by_cases hc : c = '('
      · simp only [firstParenOff, hc, if_pos rfl] at h
        obtain rfl : 0 = k := Option.some.inj h
        exact ⟨cs, by simp [hc]⟩
      · simp only [firstParenOff, hc, if_false] at h
        obtain ⟨k', hk', rfl⟩ := map_succ_eq_some h
        obtain ⟨v, hv⟩ := ih k' hk'
        exact ⟨v, by simpa using hv⟩

lemma take_append_len {α : Type} (xs ys : List α) : (xs ++ ys).take xs.length = xs := by
  induction xs with
  | nil => rfl
  | cons x xs ih => simp [ih]

lemma count_dropWhile_ws (c : Char) (hc : c.isWhitespace = false) :
    ∀ l : List Char, (l.dropWhile Char.isWhitespace).count c = l.count c := by
  intro l
  induction l with
  | nil => rfl
  | cons a l ih =>
      by_cases ha : a.isWhitespace = true
      · have hca : c ≠ a := by
          intro he
          rw [he, ha] at hc
          exact absurd hc (by decide)
        rw [List.dropWhile_cons, if_pos ha, ih, List.count_cons_of_ne hca]
      · rw [List.dropWhile_cons, if_neg ha]

lemma count_stripList (c : Char) (hc : c.isWhitespace = false) (l : List Char) :
    (stripList l).count c = l.count c := by
  unfold stripList
  rw [List.count_reverse, count_dropWhile_ws c hc, List.count_reverse,
    count_dropWhile_ws c hc]

/-- Decomposition of a successful depth scan: the scanned list splits as the
chars before the matching close paren, the close paren, and the rest, and the
counts of parens before the close satisfy the depth invariant. -/
lemma scanOff_decomp :
    ∀ (u : List Char) (d : Int) (off : Nat), scanOff u d = some off →
      ∃ w r, u = w ++ ')' :: r ∧ w.length = off ∧
        ((w.count ')' : Int) + 1 = (w.count '(' : Int) + d) := by
  intro u
  induction u with
  | nil => intro d off h; simp [scanOff] at h
  | cons c cs ih =>
      intro d off h
      by_cases h1 : c = '('
      · subst h1
        rw [show scanOff ('(' :: cs) d = (scanOff cs (d + 1)).map (fun x => x + 1)
            from rfl] at h
        obtain ⟨off', hoff', rfl⟩ := map_succ_eq_some h
        obtain ⟨w, r, hu, hlen, hcnt⟩ := ih (d + 1) off' hoff'
        refine ⟨'(' :: w, r, by rw [hu, List.cons_append], by simp [hlen], ?_⟩
        rw [List.count_cons_of_ne (by decide), List.count_cons_self]
        push_cast at hcnt ⊢
        omega
      · by_cases h2 : c = ')'
        · subst h2
          by_cases h3 : d - 1 = 0
          · rw [show scanOff (')' :: cs) d =
                (if d - 1 = 0 then some 0
                 else (scanOff cs (d - 1)).map (fun x => x + 1)) from rfl,
              if_pos h3] at h
            obtain rfl : (0 : Nat) = off := Option.some.inj h
            refine ⟨[], cs, rfl, rfl, ?_⟩
            simp only [List.count_nil]
            omega
          · rw [show scanOff (')' :: cs) d =
                (if d - 1 = 0 then some 0
                 else (scanOff cs (d - 1)).map (fun x => x + 1)) from rfl,
              if_neg h3] at h
            obtain ⟨off', hoff', rfl⟩ := map_succ_eq_some h
            obtain ⟨w, r, hu, hlen, hcnt⟩ := ih (d - 1) off' hoff'
            refine ⟨')' :: w, r, by rw [hu, List.cons_append], by simp [hlen], ?_⟩
            rw [List.count_cons_self, List.count_cons_of_ne (by decide)]
            push_cast at hcnt ⊢
            omega
        · have e : scanOff (c :: cs) d = (scanOff cs d).map (fun x => x + 1) := by
            simp only [scanOff]
            rw [if_neg h1, if_neg h2]
          rw [e] at h
          obtain ⟨off', hoff', rfl⟩ := map_succ_eq_some h
          obtain ⟨w, r, hu, hlen, hcnt⟩ := ih d off' hoff'
          refine ⟨c :: w, r, by rw [hu, List.cons_append], by simp [hlen], ?_⟩
          have hc1 : (')' : Char) ≠ c := fun he => h2 he.symm
          have hc2 : ('(' : Char) ≠ c := fun he => h1 he.symm
          rw [List.count_cons_of_ne hc1, List.count_cons_of_ne hc2]
          omega

/-! Theorems for the claims. -/

/-- C4: the claim says that when no open paren exists at or after the offset,
or when the depth never returns to zero, the extractor returns none paired
with the original offset.  The position returned is in fact the one reached
by the scan: the length of the text when no open paren exists (the skip loop
runs off the end), or the index of the found open paren when the depth never
closes — on "abc" from offset 0 the result is position 3, not 0. -/
theorem c4_counterexample :
    extract_balanced_content (chars "abc") 0 = (none, 3) ∧
    (extract_balanced_content (chars "abc") 0).2 ≠ 0 ∧
    extract_balanced_content (chars "ab(cd") 0 = (none, 2) ∧
    (extract_balanced_content (chars "ab(cd") 0).2 ≠ 0 :=
  ⟨rfl, by decide, rfl, by decide⟩

/-- C4 (amended): with no open paren at or after the offset the extractor
returns none paired with the maximum of the offset and the text length (the
position the skip loop stops at); when an open paren is found at index
offset + k but the depth never returns to zero it returns none paired with
that index.  The pair equals (none, original offset) only in the degenerate
case where the offset is already at or past the end. -/
theorem c4_amended :
    ∀ (text : List Char) (start : Nat),
      ('(' ∉ text.drop start →
        extract_balanced_content text start = (none, max start text.length)) ∧
      (∀ k, firstParenOff (text.drop start) = some k →
        scanOff (text.drop (start + k)) 0 = none →
        extract_balanced_content text start = (none, start + k)) := by
  intro text start
  constructor
  · intro h
    unfold extract_balanced_content
    rw [firstParenOff_eq_none _ h]
  · intro k h1 h2
    unfold extract_balanced_content
    rw [h1]
    show (match scanOff (text.drop (start + k)) 0 with
      | none => ((none : Option (List Char)), start + k)
      | some off =>
          (some (stripList ((text.drop (start + k + 1)).take (off - 1))),
           start + k + off + 1)) = (none, start + k)
    rw [h2]

/-- C4 witness: from offset 1 in "xyz" the extractor stops at position 3, and
on "ab(cd" (opened paren never closed) it stops at the paren's index 2. -/
theorem c4_amended_witness :
    extract_balanced_content (chars "xyz") 1 = (none, 3) ∧
    extract_balanced_content (chars "ab(cd") 0 = (none, 2) :=
  ⟨(c4_amended (chars "xyz") 1).1 (by decide),
   (c4_amended (chars "ab(cd") 0).2 2 (by decide) (by decide)⟩

/-- C6: whenever the extractor returns a content span, the span contains
equally many open and close parens: the scan stops exactly when the depth
returns to zero, so the chars strictly between the matching pair balance, and
stripping whitespace does not change paren counts. -/
theorem c6_balanced_spans :
    ∀ (text : List Char) (start : Nat) (content : List Char) (pos : Nat),
      extract_balanced_content text start = (some content, pos) →
      content.count '(' = content.count ')' := by
  intro text start content pos h
  unfold extract_balanced_content at h
  rcases hfp : firstParenOff (text.drop start) with _ | k
  · rw [hfp] at h
    simp at h
  · rw [hfp] at h
    have h' : (match scanOff (text.drop (start + k)) 0 with
        | none => ((none : Option (List Char)), start + k)
        | some off =>
            (some (stripList ((text.drop (start + k + 1)).take (off - 1))),
             start + k + off + 1)) = (some content, pos) := h
    rcases hsc : scanOff (text.drop (start + k)) 0 with _ | off
    · rw [hsc] at h'
      simp at h'
    · rw [hsc] at h'
      have hcontent :
          content = stripList ((text.drop (start + k + 1)).take (off - 1)) := by
        have := congrArg Prod.fst h'
        simpa using this.symm
      obtain ⟨v, hv⟩ := firstParenOff_drop _ _ hfp
      have hd : text.drop (start + k) = '(' :: v := by
        rw [← hv, List.drop_drop, Nat.add_comm]
      have hv1 : text.drop (start + k + 1) = v := by
        have h1 : text.drop (start + k + 1) = (text.drop (start + k)).drop 1 := by
          rw [List.drop_drop, Nat.add_comm]
        rw [h1, hd]
        rfl
      obtain ⟨w, r, hu, hlen, hcnt⟩ := scanOff_decomp _ _ _ hsc
      rw [hd] at hu
      cases w with
      | nil => simp at hu
      | cons w0 w' =>
          rw [List.cons_append] at hu
          have hw0 : '(' = w0 := (List.cons.injEq _ _ _ _ ▸ hu).1
          have hvw : v = w' ++ ')' :: r := (List.cons.injEq _ _ _ _ ▸ hu).2
          have hofflen : off - 1 = w'.length := by
            simp only [List.length_cons] at hlen
            omega
          have htake : v.take (off - 1) = w' := by
            rw [hvw, hofflen]
            exact take_append_len w' _
          have hw : w'.count '(' = w'.count ')' := by
            rw [← hw0] at hcnt
            rw [List.count_cons_of_ne (show (')' : Char) ≠ '(' by decide),
              List.count_cons_self] at hcnt
            push_cast at hcnt
            omega
          rw [hcontent, hv1, htake]
          rw [count_stripList '(' (by decide), count_stripList ')' (by decide), hw]

/-- C6 witness: a concrete successful extraction whose span balances. -/
theorem c6_balanced_spans_witness :
    (chars "a (b) c").count '(' = (chars "a (b) c").count ')' :=
  c6_balanced_spans (chars "(a (b) c) d") 0 (chars "a (b) c") 9 (by decide)

/-! Prefix helper lemmas. -/

lemma isPrefixOf_exists (p : List Char) :
    ∀ t : List Char, p.isPrefixOf t = true → ∃ s, t = p ++ s := by
  induction p with
  | nil => intro t _; exact ⟨t, rfl⟩
  | cons a as ih =>
      intro t h
      cases t with
      | nil => simp [List.isPrefixOf] at h
      | cons b bs =>
          rw [show (a :: as).isPrefixOf (b :: bs) = ((a == b) && as.isPrefixOf bs)
              from rfl, Bool.and_eq_true] at h
          obtain ⟨hab, hh⟩ := h
          obtain ⟨s, rfl⟩ := ih bs hh
          exact ⟨s, by rw [eq_of_beq hab]; rfl⟩

lemma isPrefixOf_append_self (p : List Char) :
    ∀ u : List Char, p.isPrefixOf (p ++ u) = true := by
  induction p with
  | nil => intro u; simp [List.isPrefixOf]
  | cons a as ih =>
      intro u
      rw [List.cons_append,
        show (a :: as).isPrefixOf (a :: (as ++ u)) = ((a == a) && as.isPrefixOf (as ++ u))
          from rfl]
      simp [ih u]

lemma isPrefixOf_append_of (p b r : List Char) (h : p.isPrefixOf b = true) :
    p.isPrefixOf (b ++ r) = true := by
  obtain ⟨s, rfl⟩ := isPrefixOf_exists p b h
  rw [List.append_assoc]
  exact isPrefixOf_append_self p (s ++ r)

/-- A text with the rule-keyword prefix does not have the rewrite-keyword
prefix: the two differ at the third character. -/
lemma not_rewrite_of_rule (t : List Char)
    (h : (chars "(rule").isPrefixOf t = true) :
    (chars "(rewrite").isPrefixOf t = false := by
  obtain ⟨s, rfl⟩ := isPrefixOf_exists _ t h
  rfl

lemma format_multiline_nil : format_multiline [] = chars "\\text\x7btrue\x7d" := rfl

/-- C5: the claim says a rule with an empty conditions or conclusions block is
always treated as valid, including when both blocks are empty.  When both
blocks are empty the code instead returns the rule-parse error sentinel, as
"(rule () ())" shows. -/
theorem c5_counterexample :
    to_latex (chars "(rule () ())") = some (chars "Error: Could not parse rule") := rfl

/-- C5 (amended): a rule whose conditions block is empty while its conclusions
block is nonempty (or vice versa) is treated as valid, with the empty side
rendering as the text-true macro in the fraction; only when both blocks are
empty does `to_latex` return the rule-parse error sentinel instead. -/
theorem c5_amended :
    (∀ (input : List Char) (concls : List (List Char)),
      countOccur (chars "(rule") (stripList input) +
        countOccur (chars "(rewrite") (stripList input) ≤ 1 →
      (chars "(rule").isPrefixOf (stripList input) = true →
      parse_rule (stripList input) = some ([], concls) →
      concls ≠ [] →
      to_latex input = some (chars "\\frac\x7b" ++ chars "\\text\x7btrue\x7d" ++
        chars "\x7d\x7b" ++ format_multiline (concls.map clean_expression) ++
        chars "\x7d")) ∧
    (∀ (input : List Char) (conds : List (List Char)),
      countOccur (chars "(rule") (stripList input) +
        countOccur (chars "(rewrite") (stripList input) ≤ 1 →
      (chars "(rule").isPrefixOf (stripList input) = true →
      parse_rule (stripList input) = some (conds, []) →
      conds ≠ [] →
      to_latex input = some (chars "\\frac\x7b" ++
        format_multiline (conds.map clean_equation) ++ chars "\x7d\x7b" ++
        chars "\\text\x7btrue\x7d" ++ chars "\x7d")) := by
  constructor
  · intro input concls hcount hpre hparse hne
    show to_latexF (input.length + 1) input = _
    rw [show to_latexF (input.length + 1) input =
        (if 1 < countOccur (chars "(rule") (stripList input) +
              countOccur (chars "(rewrite") (stripList input) ∧
            ruleBlocks (stripList input) ≠ [] then
          (convertAll (to_latexF input.length) (ruleBlocks (stripList input))).map
            (fun convs => joinTok (chars "\n\n") (numberRules 1 convs))
        else singleRule (stripList input)) from rfl,
      if_neg (fun hcontra => absurd hcontra.1 (by omega))]
    have hrw : (chars "(rewrite").isPrefixOf (stripList input) = false :=
      not_rewrite_of_rule _ hpre
    simp only [singleRule, hrw, Bool.false_eq_true, if_false, hpre, if_true, hparse,
      List.map_nil, format_multiline_nil, hne, and_false, ne_eq,
      not_false_eq_true]
  · intro input conds hcount hpre hparse hne
    show to_latexF (input.length + 1) input = _
    rw [show to_latexF (input.length + 1) input =
        (if 1 < countOccur (chars "(rule") (stripList input) +
              countOccur (chars "(rewrite") (stripList input) ∧
            ruleBlocks (stripList input) ≠ [] then
          (convertAll (to_latexF input.length) (ruleBlocks (stripList input))).map
            (fun convs => joinTok (chars "\n\n") (numberRules 1 convs))
        else singleRule (stripList input)) from rfl,
      if_neg (fun hcontra => absurd hcontra.1 (by omega))]
    have hrw : (chars "(rewrite").isPrefixOf (stripList input) = false :=
      not_rewrite_of_rule _ hpre
    simp only [singleRule, hrw, Bool.false_eq_true, if_false, hpre, if_true, hparse,
      List.map_nil, format_multiline_nil, hne, false_and, ne_eq,
      not_false_eq_true]

/-- C5 witness: "(rule () ((foo a)))" renders with the text-true numerator and
"(rule ((= a b)) ())" with the text-true denominator. -/
theorem c5_amended_witness :
    to_latex (chars "(rule () ((foo a)))") =
      some (chars "\\frac\x7b" ++ chars "\\text\x7btrue\x7d" ++ chars "\x7d\x7b" ++
        format_multiline ([chars "(foo a)"].map clean_expression) ++ chars "\x7d") ∧
    to_latex (chars "(rule ((= a b)) ())") =
      some (chars "\\frac\x7b" ++
        format_multiline ([chars "(= a b)"].map clean_equation) ++ chars "\x7d\x7b" ++
        chars "\\text\x7btrue\x7d" ++ chars "\x7d") :=
  ⟨c5_amended.1 (chars "(rule () ((foo a)))") [chars "(foo a)"]
      (by decide) (by decide) (by decide) (by decide),
   c5_amended.2 (chars "(rule ((= a b)) ())") [chars "(= a b)"]
      (by decide) (by decide) (by decide) (by decide)⟩

/-! Helper lemmas for the idempotence claim: character classes, whitespace
splitting and joining. -/

lemma ws_char_cases (c : Char) (h : c.isWhitespace = true) :
    c = ' ' ∨ c = '\t' ∨ c = '\r' ∨ c = '\n' := by
  unfold Char.isWhitespace at h
  simp only [Bool.or_eq_true, decide_eq_true_eq, beq_iff_eq] at h
  tauto

lemma alpha_not_ws (c : Char) (h : c.isAlpha = true) : c.isWhitespace = false := by
  cases hws : c.isWhitespace with
  | false => rfl
  | true => rcases ws_char_cases c hws with rfl | rfl | rfl | rfl <;> exact absurd h (by decide)

lemma digit_not_ws (c : Char) (h : c.isDigit = true) : c.isWhitespace = false := by
  cases hws : c.isWhitespace with
  | false => rfl
  | true => rcases ws_char_cases c hws with rfl | rfl | rfl | rfl <;> exact absurd h (by decide)

lemma alpha_ne_lparen (c : Char) (h : c.isAlpha = true) : c ≠ '(' := by
  intro he
  subst he
  exact absurd h (by decide)

lemma digit_ne_lparen (c : Char) (h : c.isDigit = true) : c ≠ '(' := by
  intro he
  subst he
  exact absurd h (by decide)

/-- An already-clean token in the sense of the idempotence claim: a single
letter, or a nonempty all-digit numeral. -/
def cleanTok (t : List Char) : Prop :=
  (t.length = 1 ∧ ∀ c ∈ t, c.isAlpha = true) ∨ (t ≠ [] ∧ ∀ c ∈ t, c.isDigit = true)

lemma cleanTok_nonempty {t : List Char} (h : cleanTok t) : t ≠ [] := by
  rcases h with ⟨hlen, _⟩ | ⟨hne, _⟩
  · intro he
    rw [he] at hlen
    simp at hlen
  · exact hne

lemma cleanTok_chars {t : List Char} (h : cleanTok t) :
    ∀ c ∈ t, c.isWhitespace = false ∧ c ≠ '(' := by
  intro c hc
  rcases h with ⟨_, hall⟩ | ⟨_, hall⟩
  · exact ⟨alpha_not_ws c (hall c hc), alpha_ne_lparen c (hall c hc)⟩
  · exact ⟨digit_not_ws c (hall c hc), digit_ne_lparen c (hall c hc)⟩

lemma length_dropWhile_le (p : Char → Bool) :
    ∀ l : List Char, (l.dropWhile p).length ≤ l.length := by
  intro l
  induction l with
  | nil => exact Nat.le_refl _
  | cons a l ih =>
      rw [List.dropWhile_cons]
      by_cases ha : p a = true
      · rw [if_pos ha]
        exact Nat.le_trans ih (by simp)
      · rw [if_neg ha]

lemma splitWsF_irrel :
    ∀ (f1 : Nat) (f2 : Nat) (l : List Char), l.length < f1 → l.length < f2 →
      splitWsF f1 l = splitWsF f2 l := by
  intro f1
  induction f1 with
  | zero => intro f2 l h1 _; omega
  | succ f ih =>
      intro f2 l h1 h2
      cases f2 with
      | zero => omega
      | succ g =>
          cases l with
          | nil => rfl
          | cons c cs =>
              by_cases hc : c.isWhitespace = true
              · rw [show splitWsF (f + 1) (c :: cs) = splitWsF f cs from by
                    simp [splitWsF, hc],
                  show splitWsF (g + 1) (c :: cs) = splitWsF g cs from by
                    simp [splitWsF, hc]]
                exact ih g cs (by simp at h1; omega) (by simp at h2; omega)
              · have hcb : c.isWhitespace = false := by
                  cases hx : c.isWhitespace
                  · rfl
                  · exact absurd hx hc
                rw [show splitWsF (f + 1) (c :: cs) =
                      (c :: cs).takeWhile (fun x => !x.isWhitespace) ::
                        splitWsF f ((c :: cs).dropWhile (fun x => !x.isWhitespace)) from by
                    simp [splitWsF, hcb],
                  show splitWsF (g + 1) (c :: cs) =
                      (c :: cs).takeWhile (fun x => !x.isWhitespace) ::
                        splitWsF g ((c :: cs).dropWhile (fun x => !x.isWhitespace)) from by
                    simp [splitWsF, hcb]]
                have hdw : (c :: cs).dropWhile (fun x => !x.isWhitespace) =
                    cs.dropWhile (fun x => !x.isWhitespace) := by
                  rw [List.dropWhile_cons, if_pos (by rw [hcb]; rfl)]
                have hlen : ((c :: cs).dropWhile (fun x => !x.isWhitespace)).length ≤
                    cs.length := by
                  rw [hdw]
                  exact length_dropWhile_le _ _
                exact congrArg _ (ih g _ (by simp at h1 ⊢; omega)
                  (by simp at h2 ⊢; omega))

lemma splitWs_ws {c : Char} (cs : List Char) (h : c.isWhitespace = true) :
    splitWs (c :: cs) = splitWs cs := by
  show splitWsF (cs.length + 1 + 1) (c :: cs) = splitWs cs
  rw [show splitWsF (cs.length + 1 + 1) (c :: cs) = splitWsF (cs.length + 1) cs from by
    simp [splitWsF, h]]
  rfl

lemma splitWs_tok {c : Char} (cs : List Char) (h : c.isWhitespace = false) :
    splitWs (c :: cs) = (c :: cs).takeWhile (fun x => !x.isWhitespace) ::
      splitWs ((c :: cs).dropWhile (fun x => !x.isWhitespace)) := by
  show splitWsF (cs.length + 1 + 1) (c :: cs) = _
  rw [show splitWsF (cs.length + 1 + 1) (c :: cs) =
      (c :: cs).takeWhile (fun x => !x.isWhitespace) ::
        splitWsF (cs.length + 1) ((c :: cs).dropWhile (fun x => !x.isWhitespace)) from by
    simp [splitWsF, h]]
  have hdw : (c :: cs).dropWhile (fun x => !x.isWhitespace) =
      cs.dropWhile (fun x => !x.isWhitespace) := by
    rw [List.dropWhile_cons, if_pos (by rw [h]; rfl)]
  have hlen : ((c :: cs).dropWhile (fun x => !x.isWhitespace)).length ≤ cs.length := by
    rw [hdw]
    exact length_dropWhile_le _ _
  exact congrArg _ (splitWsF_irrel _ _ _ (by omega) (by omega))

lemma chars_space : chars " " = [' '] := by decide

lemma joinTok_cons₂ (sep t t2 : List Char) (ts : List (List Char)) :
    joinTok sep (t :: t2 :: ts) = t ++ sep ++ joinTok sep (t2 :: ts) := rfl

lemma joinTok_cons_space (t t2 : List Char) (ts : List (List Char)) :
    joinTok (chars " ") (t :: t2 :: ts) =
      t ++ ' ' :: joinTok (chars " ") (t2 :: ts) := by
  rw [joinTok_cons₂, chars_space, List.append_assoc, List.singleton_append]

lemma takeWhile_all {p : Char → Bool} :
    ∀ {l : List Char}, (∀ c ∈ l, p c = true) → l.takeWhile p = l := by
  intro l
  induction l with
  | nil => intro _; rfl
  | cons a l ih =>
      intro h
      rw [List.takeWhile_cons, if_pos (h a (List.mem_cons_self a l)),
        ih (fun c hc => h c (List.mem_cons_of_mem a hc))]

lemma dropWhile_all {p : Char → Bool} :
    ∀ {l : List Char}, (∀ c ∈ l, p c = true) → l.dropWhile p = [] := by
  intro l
  induction l with
  | nil => intro _; rfl
  | cons a l ih =>
      intro h
      rw [List.dropWhile_cons, if_pos (h a (List.mem_cons_self a l)),
        ih (fun c hc => h c (List.mem_cons_of_mem a hc))]

lemma takeWhile_append_stop {p : Char → Bool} {x : Char} {rest : List Char}
    (hstop : p x = false) :
    ∀ {t : List Char}, (∀ c ∈ t, p c = true) →
      (t ++ x :: rest).takeWhile p = t := by
  intro t
  induction t with
  | nil =>
      intro _
      rw [List.nil_append, List.takeWhile_cons, if_neg (by rw [hstop]; exact fun h => absurd h (by decide))]
  | cons a t ih =>
      intro h
      rw [List.cons_append, List.takeWhile_cons,
        if_pos (h a (List.mem_cons_self a t)),
        ih (fun c hc => h c (List.mem_cons_of_mem a hc))]

lemma dropWhile_append_stop {p : Char → Bool} {x : Char} {rest : List Char}
    (hstop : p x = false) :
    ∀ {t : List Char}, (∀ c ∈ t, p c = true) →
      (t ++ x :: rest).dropWhile p = x :: rest := by
  intro t
  induction t with
  | nil =>
      intro _
      rw [List.nil_append, List.dropWhile_cons, if_neg (by rw [hstop]; exact fun h => absurd h (by decide))]
  | cons a t ih =>
      intro h
      rw [List.cons_append, List.dropWhile_cons,
        if_pos (h a (List.mem_cons_self a t)),
        ih (fun c hc => h c (List.mem_cons_of_mem a hc))]

lemma splitWs_single {t : List Char} (hne : t ≠ [])
    (hc : ∀ c ∈ t, c.isWhitespace = false) : splitWs t = [t] := by
  cases t with
  | nil => exact absurd rfl hne
  | cons c cs =>
      rw [splitWs_tok cs (hc c (List.mem_cons_self c cs)),
        takeWhile_all (fun x hx => by rw [hc x hx]; rfl),
        dropWhile_all (fun x hx => by rw [hc x hx]; rfl)]
      rfl

lemma splitWs_joinTok :
    ∀ ts : List (List Char),
      (∀ t ∈ ts, t ≠ [] ∧ ∀ c ∈ t, c.isWhitespace = false) →
      splitWs (joinTok (chars " ") ts) = ts := by
  intro ts
  induction ts with
  | nil => intro _; rfl
  | cons t ts' ih =>
      intro h
      obtain ⟨hne, hcs⟩ := h t (List.mem_cons_self t ts')
      cases ts' with
      | nil => exact splitWs_single hne hcs
      | cons t2 ts'' =>
          rw [joinTok_cons_space]
          cases t with
          | nil => exact absurd rfl hne
          | cons c cs =>
              have hcws : c.isWhitespace = false := hcs c (List.mem_cons_self c cs)
              rw [List.cons_append, splitWs_tok _ hcws, ← List.cons_append,
                takeWhile_append_stop (by decide)
                  (fun x hx => by rw [hcs x hx]; rfl),
                dropWhile_append_stop (by decide)
                  (fun x hx => by rw [hcs x hx]; rfl),
                splitWs_ws _ (by decide),
                ih (fun u hu => h u (List.mem_cons_of_mem _ hu))]

lemma cleanTok_format {t : List Char} (h : cleanTok t) : format_identifier t = t := by
  unfold format_identifier
  rcases h with ⟨hlen, hall⟩ | ⟨hne, hall⟩
  · have h1 : (t.length == 1) = true := by simp [hlen]
    have h2 : t.all Char.isAlpha = true := List.all_eq_true.mpr hall
    rw [if_pos (by rw [h1, h2]; simp)]
  · have h1 : (!t.isEmpty) = true := by
      cases t with
      | nil => exact absurd rfl hne
      | cons a l => rfl
    have h2 : t.all Char.isDigit = true := List.all_eq_true.mpr hall
    rw [if_pos (by rw [h1, h2]; simp)]

lemma map_format_identifier :
    ∀ ts : List (List Char), (∀ t ∈ ts, cleanTok t) →
      ts.map format_identifier = ts := by
  intro ts
  induction ts with
  | nil => intro _; rfl
  | cons t ts' ih =>
      intro h
      rw [List.map_cons, cleanTok_format (h t (List.mem_cons_self t ts')),
        ih (fun u hu => h u (List.mem_cons_of_mem t hu))]

lemma dropWhile_ws_id {l : List Char}
    (h : ∀ hd rest, l = hd :: rest → hd.isWhitespace = false) :
    l.dropWhile Char.isWhitespace = l := by
  cases l with
  | nil => rfl
  | cons hd rest =>
      rw [List.dropWhile_cons, if_neg (by rw [h hd rest rfl]; exact fun x => absurd x (by decide))]

lemma stripList_eq_self {l : List Char}
    (h1 : ∀ hd rest, l = hd :: rest → hd.isWhitespace = false)
    (h2 : ∀ hd rest, l.reverse = hd :: rest → hd.isWhitespace = false) :
    stripList l = l := by
  unfold stripList
  rw [dropWhile_ws_id h1, dropWhile_ws_id h2, List.reverse_reverse]

lemma joinTok_cons_head (c : Char) (cs : List Char) (ts : List (List Char)) :
    ∃ rest, joinTok (chars " ") ((c :: cs) :: ts) = c :: rest := by
  cases ts with
  | nil => exact ⟨cs, rfl⟩
  | cons t2 ts' =>
      refine ⟨cs ++ ' ' :: joinTok (chars " ") (t2 :: ts'), ?_⟩
      rw [joinTok_cons_space, List.cons_append]

lemma joinTok_last_not_ws :
    ∀ ts : List (List Char),
      (∀ t ∈ ts, t ≠ [] ∧ ∀ c ∈ t, c.isWhitespace = false) →
      ∀ hd rest, (joinTok (chars " ") ts).reverse = hd :: rest →
        hd.isWhitespace = false := by
  intro ts
  induction ts with
  | nil => intro _ hd rest h; simp [joinTok] at h
  | cons t ts' ih =>
      intro h hd rest hrev
      obtain ⟨hne, hcs⟩ := h t (List.mem_cons_self t ts')
      cases ts' with
      | nil =>
          have hrev' : t.reverse = hd :: rest := hrev
          have hmem : hd ∈ t.reverse := by
            rw [hrev']
            exact List.mem_cons_self hd rest
          exact hcs hd (List.mem_reverse.mp hmem)
      | cons t2 ts'' =>
          rw [joinTok_cons_space, List.reverse_append, List.reverse_cons] at hrev
          obtain ⟨hne2, _⟩ := h t2 (List.mem_cons_of_mem t (List.mem_cons_self t2 ts''))
          obtain ⟨c2, cs2, rfl⟩ : ∃ c2 cs2, t2 = c2 :: cs2 := by
            cases t2 with
            | nil => exact absurd rfl hne2
            | cons a l => exact ⟨a, l, rfl⟩
          obtain ⟨rest2, hr2⟩ := joinTok_cons_head c2 cs2 ts''
          rw [hr2] at hrev
          cases hJr : (c2 :: rest2).reverse with
          | nil => simp at hJr
          | cons jh jt =>
              rw [hJr, List.append_assoc, List.cons_append] at hrev
              have hjh : jh = hd := (List.cons.injEq _ _ _ _ ▸ hrev).1
              rw [← hjh]
              exact ih (fun u hu => h u (List.mem_cons_of_mem t hu)) jh jt
                (by rw [hr2, hJr])

lemma prefix_lparen_false {s : List Char}
    (h : ∀ hd rest, s = hd :: rest → hd ≠ '(') :
    (chars "(").isPrefixOf s = false := by
  cases s with
  | nil => rfl
  | cons hd rest =>
      have hne : ('(' == hd) = false := by
        rw [beq_eq_false_iff_ne]
        exact fun he => (h hd rest rfl) he.symm
      rw [show (chars "(").isPrefixOf (hd :: rest) = (('(' == hd) && [].isPrefixOf rest)
        from rfl, hne]
      rfl

lemma parse_expressionF_noparen (fuel : Nat) (text : List Char)
    (h : (chars "(").isPrefixOf (stripList text) = false) :
    parse_expressionF (fuel + 1) text =
      joinTok (chars " ") ((splitWs (stripList text)).map format_identifier) := by
  simp only [parse_expressionF, h, Bool.false_eq_true, if_false]

/-- C8: `clean_expression` is the identity on already-clean input: a string of
single-letter or all-digit tokens separated by single spaces is returned
unchanged, and consequently applying the cleaner twice equals applying it
once. -/
theorem c8_idempotent :
    ∀ ts : List (List Char), (∀ t ∈ ts, cleanTok t) →
      clean_expression (joinTok (chars " ") ts) = joinTok (chars " ") ts ∧
      clean_expression (clean_expression (joinTok (chars " ") ts)) =
        clean_expression (joinTok (chars " ") ts) := by
  intro ts h
  have hsafe : ∀ t ∈ ts, t ≠ [] ∧ ∀ c ∈ t, c.isWhitespace = false :=
    fun t ht => ⟨cleanTok_nonempty (h t ht),
      fun c hc => (cleanTok_chars (h t ht) c hc).1⟩
  have hhead : ∀ hd rest, joinTok (chars " ") ts = hd :: rest →
      hd.isWhitespace = false ∧ hd ≠ '(' := by
    intro hd rest hj
    cases ts with
    | nil => simp [joinTok] at hj
    | cons t ts' =>
        obtain ⟨c, cs, rfl⟩ : ∃ c cs, t = c :: cs := by
          cases t with
          | nil => exact absurd rfl (cleanTok_nonempty (h _ (List.mem_cons_self _ _)))
          | cons a l => exact ⟨a, l, rfl⟩
        obtain ⟨rest', hr⟩ := joinTok_cons_head c cs ts'
        rw [hr] at hj
        have hc : hd = c := (List.cons.injEq _ _ _ _ ▸ hj).1.symm
        subst hc
        exact cleanTok_chars (h _ (List.mem_cons_self _ _)) hd
          (List.mem_cons_self hd cs)
  have hstrip : stripList (joinTok (chars " ") ts) = joinTok (chars " ") ts := by
    apply stripList_eq_self
    · exact fun hd rest hj => (hhead hd rest hj).1
    · exact joinTok_last_not_ws ts hsafe
  have hpref : (chars "(").isPrefixOf (joinTok (chars " ") ts) = false :=
    prefix_lparen_false (fun hd rest hj => (hhead hd rest hj).2)
  have hpe : parse_expression (joinTok (chars " ") ts) = joinTok (chars " ") ts := by
    unfold parse_expression
    rw [parse_expressionF_noparen _ _ (by rw [hstrip]; exact hpref), hstrip,
      splitWs_joinTok ts hsafe, map_format_identifier ts h]
  have hmain : clean_expression (joinTok (chars " ") ts) = joinTok (chars " ") ts := by
    unfold clean_expression
    rw [hstrip]
    rw [if_neg (fun hcontra => by
      rw [hpref] at hcontra
      exact absurd hcontra.1 (by decide))]
    exact hpe
  exact ⟨hmain, by rw [hmain]; exact hmain⟩

/-- C8 witness: the already-clean string "a 12 b" is returned unchanged. -/
theorem c8_idempotent_witness :
    clean_expression (chars "a 12 b") = chars "a 12 b" ∧
    clean_expression (clean_expression (chars "a 12 b")) =
      clean_expression (chars "a 12 b") :=
  c8_idempotent [chars "a", chars "12", chars "b"] (by
    intro t ht
    simp only [List.mem_cons, List.not_mem_nil, or_false] at ht
    rcases ht with rfl | rfl | rfl <;> (unfold cleanTok; decide))

/-! Helper lemmas for the batch-count claim: the multi-rule block scan. -/

lemma scanOff_append :
    ∀ (u : List Char) (d : Int) (k : Nat), scanOff u d = some k →
      ∀ v, scanOff (u ++ v) d = some k := by
  intro u
  induction u with
  | nil => intro d k h v; simp [scanOff] at h
  | cons c cs ih =>
      intro d k h v
      rw [List.cons_append]
      by_cases h1 : c = '('
      · subst h1
        rw [show scanOff ('(' :: (cs ++ v)) d =
            (scanOff (cs ++ v) (d + 1)).map (fun x => x + 1) from rfl]
        rw [show scanOff ('(' :: cs) d =
            (scanOff cs (d + 1)).map (fun x => x + 1) from rfl] at h
        obtain ⟨k', hk', rfl⟩ := map_succ_eq_some h
        rw [ih (d + 1) k' hk' v]
        rfl
      · by_cases h2 : c = ')'
        · subst h2
          by_cases h3 : d - 1 = 0
          · rw [show scanOff (')' :: cs) d =
                (if d - 1 = 0 then some 0
                 else (scanOff cs (d - 1)).map (fun x => x + 1)) from rfl,
              if_pos h3] at h
            rw [show scanOff (')' :: (cs ++ v)) d =
                (if d - 1 = 0 then some 0
                 else (scanOff (cs ++ v) (d - 1)).map (fun x => x + 1)) from rfl,
              if_pos h3]
            exact h
          · rw [show scanOff (')' :: cs) d =
                (if d - 1 = 0 then some 0
                 else (scanOff cs (d - 1)).map (fun x => x + 1)) from rfl,
              if_neg h3] at h
            rw [show scanOff (')' :: (cs ++ v)) d =
                (if d - 1 = 0 then some 0
                 else (scanOff (cs ++ v) (d - 1)).map (fun x => x + 1)) from rfl,
              if_neg h3]
            obtain ⟨k', hk', rfl⟩ := map_succ_eq_some h
            rw [ih (d - 1) k' hk' v]
            rfl
        · have e1 : scanOff (c :: cs) d = (scanOff cs d).map (fun x => x + 1) := by
            simp only [scanOff]
            rw [if_neg h1, if_neg h2]
          have e2 : scanOff (c :: (cs ++ v)) d =
              (scanOff (cs ++ v) d).map (fun x => x + 1) := by
            simp only [scanOff]
            rw [if_neg h1, if_neg h2]
          rw [e1] at h
          rw [e2]
          obtain ⟨k', hk', rfl⟩ := map_succ_eq_some h
          rw [ih d k' hk' v]
          rfl

lemma drop_append_len {α : Type} (xs ys : List α) : (xs ++ ys).drop xs.length = ys := by
  induction xs with
  | nil => rfl
  | cons x xs ih => simp [ih]

lemma ruleBlocksF_irrel :
    ∀ (f1 : Nat) (f2 : Nat) (l : List Char), l.length < f1 → l.length < f2 →
      ruleBlocksF f1 l = ruleBlocksF f2 l := by
  intro f1
  induction f1 with
  | zero => intro f2 l h1 _; omega
  | succ f ih =>
      intro f2 l h1 h2
      cases f2 with
      | zero => omega
      | succ g =>
          cases l with
          | nil => rfl
          | cons c cs =>
              by_cases hc : c.isWhitespace = true
              · rw [show ruleBlocksF (f + 1) (c :: cs) = ruleBlocksF f cs from by
                    simp [ruleBlocksF, hc],
                  show ruleBlocksF (g + 1) (c :: cs) = ruleBlocksF g cs from by
                    simp [ruleBlocksF, hc]]
                exact ih g cs (by simp at h1; omega) (by simp at h2; omega)
              · have hcb : c.isWhitespace = false := by
                  cases hx : c.isWhitespace
                  · rfl
                  · exact absurd hx hc
                by_cases hpre : ((chars "(rule ").isPrefixOf (c :: cs) ||
                    (chars "(rewrite ").isPrefixOf (c :: cs)) = true
                · rcases hsc : scanOff (c :: cs) 0 with _ | off
                  · rw [show ruleBlocksF (f + 1) (c :: cs) = [] from by
                        simp [ruleBlocksF, hcb, hpre, hsc],
                      show ruleBlocksF (g + 1) (c :: cs) = [] from by
                        simp [ruleBlocksF, hcb, hpre, hsc]]
                  · rw [show ruleBlocksF (f + 1) (c :: cs) =
                          (c :: cs).take (off + 1) ::
                            ruleBlocksF f ((c :: cs).drop (off + 1)) from by
                        simp [ruleBlocksF, hcb, hpre, hsc],
                      show ruleBlocksF (g + 1) (c :: cs) =
                          (c :: cs).take (off + 1) ::
                            ruleBlocksF g ((c :: cs).drop (off + 1)) from by
                        simp [ruleBlocksF, hcb, hpre, hsc]]
                    have hlen : ((c :: cs).drop (off + 1)).length ≤ cs.length := by
                      rw [List.length_drop]
                      simp only [List.length_cons]
                      omega
                    exact congrArg _ (ih g _ (by simp at h1; omega) (by simp at h2; omega))
                · have hpreb : ((chars "(rule ").isPrefixOf (c :: cs) ||
                      (chars "(rewrite ").isPrefixOf (c :: cs)) = false := by
                    cases hx : ((chars "(rule ").isPrefixOf (c :: cs) ||
                        (chars "(rewrite ").isPrefixOf (c :: cs))
                    · rfl
                    · exact absurd hx hpre
                  rw [show ruleBlocksF (f + 1) (c :: cs) = ruleBlocksF f cs from by
                      simp [ruleBlocksF, hcb, hpreb],
                    show ruleBlocksF (g + 1) (c :: cs) = ruleBlocksF g cs from by
                      simp [ruleBlocksF, hcb, hpreb]]
                  exact ih g cs (by simp at h1; omega) (by simp at h2; omega)

lemma ruleBlocks_ws {c : Char} (cs : List Char) (h : c.isWhitespace = true) :
    ruleBlocks (c :: cs) = ruleBlocks cs := by
  show ruleBlocksF (cs.length + 1 + 1) (c :: cs) = ruleBlocks cs
  rw [show ruleBlocksF (cs.length + 1 + 1) (c :: cs) = ruleBlocksF (cs.length + 1) cs
    from by simp [ruleBlocksF, h]]
  rfl

lemma ruleBlocks_block {c : Char} {cs : List Char} {off : Nat}
    (hws : c.isWhitespace = false)
    (hpre : ((chars "(rule ").isPrefixOf (c :: cs) ||
      (chars "(rewrite ").isPrefixOf (c :: cs)) = true)
    (hsc : scanOff (c :: cs) 0 = some off) :
    ruleBlocks (c :: cs) =
      (c :: cs).take (off + 1) :: ruleBlocks ((c :: cs).drop (off + 1)) := by
  show ruleBlocksF (cs.length + 1 + 1) (c :: cs) = _
  rw [show ruleBlocksF (cs.length + 1 + 1) (c :: cs) =
      (c :: cs).take (off + 1) ::
        ruleBlocksF (cs.length + 1) ((c :: cs).drop (off + 1)) from by
    simp [ruleBlocksF, hws, hpre, hsc]]
  refine congrArg _ (ruleBlocksF_irrel _ _ _ ?_ ?_)
  · rw [List.length_drop]
    simp only [List.length_cons]
    omega
  · rw [List.length_drop]
    omega

lemma ruleBlocks_all_ws :
    ∀ l : List Char, (∀ c ∈ l, c.isWhitespace = true) → ruleBlocks l = [] := by
  intro l
  induction l with
  | nil => intro _; rfl
  | cons c cs ih =>
      intro h
      rw [ruleBlocks_ws cs (h c (List.mem_cons_self c cs))]
      exact ih (fun x hx => h x (List.mem_cons_of_mem c hx))

/-- A top-level rule block: it carries one of the two keyword prefixes and its
paren depth first returns to zero exactly at its last character. -/
def isKeywordBlock (b : List Char) : Prop :=
  ((chars "(rule ").isPrefixOf b = true ∨ (chars "(rewrite ").isPrefixOf b = true) ∧
    scanOff b 0 = some (b.length - 1)

/-- A text that is a whitespace-separated sequence of top-level keyword
blocks, in order. -/
inductive BlockSeq : List Char → List (List Char) → Prop where
  | nil : ∀ t : List Char, (∀ c ∈ t, c.isWhitespace = true) → BlockSeq t []
  | ws : ∀ (c : Char) (t : List Char) (bs : List (List Char)),
      c.isWhitespace = true → BlockSeq t bs → BlockSeq (c :: t) bs
  | block : ∀ (b rest : List Char) (bs : List (List Char)),
      isKeywordBlock b → BlockSeq rest bs → BlockSeq (b ++ rest) (b :: bs)

/-- The multi-rule scan recovers exactly the top-level blocks. -/
lemma ruleBlocks_spec :
    ∀ (t : List Char) (bs : List (List Char)), BlockSeq t bs → ruleBlocks t = bs := by
  intro t bs h
  induction h with
  | nil t hws => exact ruleBlocks_all_ws t hws
  | ws c t bs hc _ ih =>
      rw [ruleBlocks_ws t hc]
      exact ih
  | block b rest bs hkb _ ih =>
      obtain ⟨hpre, hscan⟩ := hkb
      obtain ⟨b', rfl⟩ : ∃ b', b = '(' :: b' := by
        rcases hpre with hp | hp
        · obtain ⟨s, rfl⟩ := isPrefixOf_exists _ _ hp
          exact ⟨chars "rule " ++ s, rfl⟩
        · obtain ⟨s, rfl⟩ := isPrefixOf_exists _ _ hp
          exact ⟨chars "rewrite " ++ s, rfl⟩
      have hlen1 : ('(' :: b').length - 1 = b'.length := by simp
      rw [hlen1] at hscan
      have hsc2 : scanOff ('(' :: (b' ++ rest)) 0 = some b'.length := by
        have := scanOff_append ('(' :: b') 0 b'.length hscan rest
        rwa [List.cons_append] at this
      have hpre2 : ((chars "(rule ").isPrefixOf ('(' :: (b' ++ rest)) ||
          (chars "(rewrite ").isPrefixOf ('(' :: (b' ++ rest))) = true := by
        rcases hpre with hp | hp
        · have hap := isPrefixOf_append_of _ _ rest hp
          rw [List.cons_append] at hap
          rw [hap]
          rfl
        · have hap := isPrefixOf_append_of _ _ rest hp
          rw [List.cons_append] at hap
          rw [hap]
          simp
      rw [List.cons_append, ruleBlocks_block (by decide) hpre2 hsc2]
      have htake : ('(' :: (b' ++ rest)).take (b'.length + 1) = '(' :: b' := by
        rw [show ('(' :: (b' ++ rest)).take (b'.length + 1) =
            '(' :: (b' ++ rest).take b'.length from rfl]
        rw [take_append_len]
      have hdrop : ('(' :: (b' ++ rest)).drop (b'.length + 1) = rest := by
        rw [show ('(' :: (b' ++ rest)).drop (b'.length + 1) =
            (b' ++ rest).drop b'.length from rfl]
        exact drop_append_len b' rest
      rw [htake, hdrop, ih]

lemma convertAll_length (f : List Char → Option (List Char)) :
    ∀ (rs convs : List (List Char)), convertAll f rs = some convs →
      convs.length = rs.length := by
  intro rs
  induction rs with
  | nil =>
      intro convs h
      obtain rfl : [] = convs := Option.some.inj h
      rfl
  | cons r rs ih =>
      intro convs h
      simp only [convertAll] at h
      rcases hf : f r with _ | c
      · rw [hf] at h
        simp at h
      · rw [hf] at h
        rcases hca : convertAll f rs with _ | cs'
        · rw [hca] at h
          simp at h
        · rw [hca] at h
          obtain rfl : c :: cs' = convs := by simpa using h
          simp [ih cs' hca]

/-- C3: the claim requires a numbered header for every top-level block with
N at least 1.  For a single block no header is emitted at all: the converter
only enters the numbered branch when the keyword count exceeds one, so
"(rule ((= a b)) ((foo a)))" converts to a bare fraction containing zero
occurrences of the header text, not one. -/
theorem c3_counterexample :
    to_latex (chars "(rule ((= a b)) ((foo a)))") =
      some (chars "\\frac\x7ba = b\x7d\x7b\\text\x7bfoo\x7d(a)\x7d") ∧
    countOccur (chars "% Rule")
      (chars "\\frac\x7ba = b\x7d\x7b\\text\x7bfoo\x7d(a)\x7d") = 0 :=
  ⟨rfl, rfl⟩

/-- C3 (amended): for a stripped input that is a whitespace-separated sequence
of N top-level keyword blocks with N at least 2, keyword count exceeding one,
and every block converting successfully, the output is exactly the
double-newline join of the numbered entries: header "% Rule k" for k = 1..N in
source order, each followed by the conversion of the corresponding block (so
it contains exactly N headers).  For N = 1 no header is emitted, and a block
whose own conversion diverges produces no output at all. -/
theorem c3_amended :
    ∀ (n : Nat) (input : List Char) (bs convs : List (List Char)),
      BlockSeq (stripList input) bs →
      2 ≤ bs.length →
      1 < countOccur (chars "(rule") (stripList input) +
          countOccur (chars "(rewrite") (stripList input) →
      convertAll (to_latexF n) bs = some convs →
      to_latexF (n + 1) input =
        some (joinTok (chars "\n\n") (numberRules 1 convs)) ∧
      convs.length = bs.length := by
  intro n input bs convs hseq hlen hcount hconv
  have hrb : ruleBlocks (stripList input) = bs := ruleBlocks_spec _ _ hseq
  refine ⟨?_, convertAll_length _ _ _ hconv⟩
  rw [show to_latexF (n + 1) input =
      (if 1 < countOccur (chars "(rule") (stripList input) +
            countOccur (chars "(rewrite") (stripList input) ∧
          ruleBlocks (stripList input) ≠ [] then
        (convertAll (to_latexF n) (ruleBlocks (stripList input))).map
          (fun convs => joinTok (chars "\n\n") (numberRules 1 convs))
      else singleRule (stripList input)) from rfl]
  rw [if_pos ⟨hcount, by
    rw [hrb]
    intro he
    rw [he] at hlen
    simp at hlen⟩]
  rw [hrb, hconv]
  rfl

/-- C3 witness: two rewrite blocks produce exactly the two numbered entries. -/
theorem c3_amended_witness :
    to_latexF 21 (chars "(rewrite (f a) (g b)) (rewrite (h c) (k d))") =
      some (joinTok (chars "\n\n") (numberRules 1
        [chars "\\frac\x7bexpr = f(a)\x7d\x7bexpr \\to g(b)\x7d",
         chars "\\frac\x7bexpr = h(c)\x7d\x7bexpr \\to k(d)\x7d"])) ∧
    ([chars "\\frac\x7bexpr = f(a)\x7d\x7bexpr \\to g(b)\x7d",
      chars "\\frac\x7bexpr = h(c)\x7d\x7bexpr \\to k(d)\x7d"] : List (List Char)).length =
      ([chars "(rewrite (f a) (g b))",
        chars "(rewrite (h c) (k d))"] : List (List Char)).length := by
  have hseq : BlockSeq (stripList (chars "(rewrite (f a) (g b)) (rewrite (h c) (k d))"))
      [chars "(rewrite (f a) (g b))", chars "(rewrite (h c) (k d))"] := by
    rw [show stripList (chars "(rewrite (f a) (g b)) (rewrite (h c) (k d))") =
        chars "(rewrite (f a) (g b)" ++ (')' :: (' ' :: chars "(rewrite (h c) (k d))"))
      from by decide]
    have h2 : BlockSeq (chars "(rewrite (h c) (k d))" ++ [])
        [chars "(rewrite (h c) (k d))"] :=
      BlockSeq.block _ _ _ ⟨Or.inr (by decide), by decide⟩
        (BlockSeq.nil [] (by simp))
    rw [List.append_nil] at h2
    have h1 : BlockSeq (' ' :: chars "(rewrite (h c) (k d))")
        [chars "(rewrite (h c) (k d))"] := BlockSeq.ws _ _ _ (by decide) h2
    have h0 := BlockSeq.block (chars "(rewrite (f a) (g b))")
      (' ' :: chars "(rewrite (h c) (k d))") _ ⟨Or.inr (by decide), by decide⟩ h1
    rw [show chars "(rewrite (f a) (g b))" ++ (' ' :: chars "(rewrite (h c) (k d))") =
        chars "(rewrite (f a) (g b)" ++ (')' :: (' ' :: chars "(rewrite (h c) (k d))"))
      from by decide] at h0
    exact h0
  exact c3_amended 20 (chars "(rewrite (f a) (g b)) (rewrite (h c) (k d))")
    [chars "(rewrite (f a) (g b))", chars "(rewrite (h c) (k d))"]
    [chars "\\frac\x7bexpr = f(a)\x7d\x7bexpr \\to g(b)\x7d",
     chars "\\frac\x7bexpr = h(c)\x7d\x7bexpr \\to k(d)\x7d"]
    hseq (by decide) (by decide) (by decide)

/-- C1: the spec example claims that the input string
"(rewrite (add x 0) x)" converts to the fraction with numerator
"expr = \text of add applied to (x, 0)" and denominator "expr \to x".
In fact `parse_rewrite` extracts only parenthesized spans, so the bare-atom
right-hand side "x" is not found and `to_latex` returns the rewrite-parse
error sentinel instead of the claimed fraction. -/
theorem c1_counterexample :
    to_latex (chars "(rewrite (add x 0) x)") =
      some (chars "Error: Could not parse rewrite rule") ∧
    to_latex (chars "(rewrite (add x 0) x)") ≠
      some (chars "\\frac\x7bexpr = \\text\x7badd\x7d(x, 0)\x7d\x7bexpr \\to x\x7d") := by
  exact ⟨rfl, by decide⟩

/-- C1 (amended): on the spec's input the converter returns the rewrite-parse
error sentinel — a rewrite whose right-hand side is a bare atom is rejected,
not rendered; the claimed output is produced once the right-hand side is
parenthesized, as in "(rewrite (add x 0) (x))". -/
theorem c1_amended :
    to_latex (chars "(rewrite (add x 0) x)") =
      some (chars "Error: Could not parse rewrite rule") ∧
    to_latex (chars "(rewrite (add x 0) (x))") =
      some (chars "\\frac\x7bexpr = \\text\x7badd\x7d(x, 0)\x7d\x7bexpr \\to x\x7d") := by
  exact ⟨rfl, rfl⟩

/-- C2: the claim says `to_latex` always terminates with a string.  It does
not: on "(rule (a) (rule (b) (c)))" the keyword count is 2, the block scan
extracts the entire input as the single block, and the function recurses on
exactly the same string forever.  In the fuel-indexed embedding the run
returns `none` at every fuel, i.e. the Python recursion never returns. -/
theorem c2_divergence :
    (∀ n, to_latexF n (chars "(rule (a) (rule (b) (c)))") = none) ∧
    to_latex (chars "(rule (a) (rule (b) (c)))") = none := by
  have h : ∀ n, to_latexF n (chars "(rule (a) (rule (b) (c)))") = none := by
    intro n
    induction n with
    | zero => rfl
    | succ k ih =>
        have key : to_latexF (k + 1) (chars "(rule (a) (rule (b) (c)))") =
            (convertAll (to_latexF k) [chars "(rule (a) (rule (b) (c)))"]).map
              (fun convs => joinTok (chars "\n\n") (numberRules 1 convs)) := rfl
        rw [key]
        simp [convertAll, ih]
  exact ⟨h, h _⟩

/-- C7: the input "(rule ((= a b)) ((foo a)))" converts to the fraction whose
numerator is "a = b" (the equation cleaner recognizes the leading equality
form) and whose denominator wraps the multi-letter name foo in a text macro
while leaving the single letter a bare. -/
theorem c7_rule_example :
    to_latex (chars "(rule ((= a b)) ((foo a)))") =
      some (chars "\\frac\x7ba = b\x7d\x7b\\text\x7bfoo\x7d(a)\x7d") := rfl

/-- C9: `format_multiline` maps the empty list to the literal text-true macro,
a singleton to its element unchanged, and two or more items to an array block
containing the items joined by the LaTeX line break, in input order. -/
theorem c9_format_multiline :
    format_multiline [] = chars "\\text\x7btrue\x7d" ∧
    (∀ x, format_multiline [x] = x) ∧
    (∀ x y zs, format_multiline (x :: y :: zs) =
      chars "\\begin\x7barray\x7d\x7bl\x7d " ++
        joinTok (chars " \\\\ ") (x :: y :: zs) ++ chars " \\end\x7barray\x7d") := by
  refine ⟨rfl, fun x => rfl, fun x y zs => ?_⟩
  have h : 1 < (x :: y :: zs).length := by
    simp only [List.length_cons]
    omega
  simp [format_multiline, h]

/-- C10: `parse_rewrite` treats an empty extracted span as failure: whenever
the keyword matches and either extracted span's content is the empty string,
it returns the none-none pair, and on the concrete input "(rewrite () (x))"
`to_latex` therefore returns the rewrite-parse error sentinel. -/
theorem c10_empty_span :
    (∀ s : List Char, (chars "(rewrite").isPrefixOf (stripList s) = true →
      ((extract_balanced_content (rewriteBody (stripList s)) 0).1 = some [] ∨
       (extract_balanced_content (rewriteBody (stripList s))
          (extract_balanced_content (rewriteBody (stripList s)) 0).2).1 = some []) →
      parse_rewrite s = (none, none)) ∧
    to_latex (chars "(rewrite () (x))") =
      some (chars "Error: Could not parse rewrite rule") := by
  refine ⟨fun s h1 h2 => ?_, rfl⟩
  simp only [parse_rewrite, h1, if_true]
  rcases h2 with hl | hr
  · rw [hl]
    rcases hrhs : (extract_balanced_content (rewriteBody (stripList s))
        (extract_balanced_content (rewriteBody (stripList s)) 0).2).1 with _ | r
    · rfl
    · simp
  · rcases hlhs : (extract_balanced_content (rewriteBody (stripList s)) 0).1 with _ | l
    · rfl
    · rw [hr]
      simp

/-- C10 witness: on the concrete input "(rewrite () (x))" the first extracted
span is empty and the parser indeed fails. -/
theorem c10_empty_span_witness :
    parse_rewrite (chars "(rewrite () (x))") = (none, none) :=
  c10_empty_span.1 (chars "(rewrite () (x))") (by decide) (Or.inl (by decide))

end Egglog
